import Mathlib

/-!
Shallow embedding of `src/tools/convert-syntax.py`.

The script applies one substitution to each file:

  pattern       = \((fn)\s+(\w+)\s+\(([^)]*(?:\([^)]*\)[^)]*)*)\)\s+->\s+(.+)
  param_pattern = \((\w+)\s+(\w+)\)

`convert_function_params` is `re.sub(pattern, replace_params, content)`;
`replace_params` flattens the captured parameter region using
`re.findall(param_pattern, params_str)`.  The embedding models the Python
`re` engine's leftmost, greedy, backtracking semantics for exactly these two
patterns, on the ASCII fragment of `\w` and `\s` (the repository's inputs
are ASCII).  `.` does not match a newline (no DOTALL flag is passed).
-/

namespace ConvertSyntax

/-- ASCII fragment of Python's `\w`: letters, digits, underscore. -/
def isWordChar (c : Char) : Bool := c.isAlphanum || c == '_'

/-- ASCII fragment of Python's `\s`. -/
def isSpaceChar (c : Char) : Bool :=
  c == ' ' || c == '\t' || c == '\n' || c == '\r' || c == '\x0b' || c == '\x0c'

/-- One successful match of the signature pattern: the four captured groups
and the text remaining after the matched span. -/
structure SigMatch where
  keyword : List Char
  name : List Char
  paramsStr : List Char
  rest : List Char
  remaining : List Char
deriving DecidableEq

/-- Greedy star over a one-character class, in continuation-passing style:
the engine tries the longest run first and backtracks one character at a
time (Python re semantics for `[c]*`). -/
def starClass {α : Type} (p : Char → Bool) (k : List Char → Option α) :
    List Char → Option α
  | [] => k []
  | c :: t => if p c then (starClass p k t) <|> k (c :: t) else k (c :: t)

/-- Greedy star of the group `\([^)]*\)[^)]*` from the signature pattern,
in continuation-passing style.  The engine prefers one more iteration over
stopping.  Each iteration consumes at least the opening parenthesis, so
calling with fuel = input length makes the fuel bound unreachable. -/
def starGroup {α : Type} (k : List Char → Option α) : Nat → List Char → Option α
  | 0, t => k t
  | fuel + 1, t =>
    match t with
    | c :: t1 =>
      if c = '(' then
        (starClass (fun d => d != ')') (fun t2 =>
          match t2 with
          | d :: t3 =>
            if d = ')' then
              starClass (fun e => e != ')') (fun t4 => starGroup k fuel t4) t3
            else none
          | [] => none) t1) <|> k (c :: t1)
      else k (c :: t1)
    | [] => k []

/-- The tail `\s+->\s+(.+)` after the closing parenthesis, second half:
given the text after `->`, match `\s+(.+)` and return (rest, remaining).
`\s+` greedily takes the maximal whitespace run of length `m`; `.` does not
match `'\n'`, so the engine backtracks the run from `m` down to `1` until
`.+` can start on a character other than `'\n'`; `(.+)` then extends
greedily to the next newline or the end of the input. -/
def dotTail : Nat → List Char → Option (List Char × List Char)
  | 0, _ => none
  | k + 1, w =>
    match w.drop (k + 1) with
    | c :: r =>
      if c = '\n' then dotTail k w
      else some (c :: r.takeWhile (fun x => x != '\n'), r.dropWhile (fun x => x != '\n'))
    | [] => dotTail k w

/-- The tail `\s+->\s+(.+)` of the signature pattern, applied to the text
after the closing parenthesis of the parameter region.  The first `\s+` is
a maximal run: shrinking it would place the `-` test on a whitespace
character, which fails, so backtracking into it cannot succeed. -/
def matchTail (v : List Char) : Option (List Char × List Char) :=
  let ws := v.takeWhile isSpaceChar
  if ws.isEmpty then none
  else
    match v.dropWhile isSpaceChar with
    | '-' :: '>' :: w => dotTail (w.takeWhile isSpaceChar).length w
    | _ => none

/-- The fragment `([^)]*(?:\([^)]*\)[^)]*)*)\)\s+->\s+(.+)` applied to the
text after the opening parenthesis of the parameter region.  Returns
(paramsStr, rest, remaining). -/
def matchParen (t5 : List Char) : Option (List Char × List Char × List Char) :=
  starClass (fun c => c != ')') (fun t1 =>
    starGroup (fun t2 =>
      match t2 with
      | d :: v =>
        if d = ')' then
          (matchTail v).map (fun p =>
            (t5.take (t5.length - v.length - 1), p.1, p.2))
        else none
      | [] => none) t1.length t1) t5

/-- One attempt of the whole signature pattern
`\((fn)\s+(\w+)\s+\(([^)]*(?:\([^)]*\)[^)]*)*)\)\s+->\s+(.+)` at the head
of `t`.  The leading `\s+` and `\w+` captures are deterministic maximal
runs: each is followed by a character class disjoint from its own, so
backtracking into them cannot succeed. -/
def matchSigAt (t : List Char) : Option SigMatch :=
  match t with
  | c0 :: c1 :: c2 :: t1 =>
    if c0 = '(' ∧ c1 = 'f' ∧ c2 = 'n' then
      let ws1 := t1.takeWhile isSpaceChar
      let t2 := t1.dropWhile isSpaceChar
      if ws1.isEmpty then none
      else
        let name := t2.takeWhile isWordChar
        let t3 := t2.dropWhile isWordChar
        if name.isEmpty then none
        else
          let ws2 := t3.takeWhile isSpaceChar
          let t4 := t3.dropWhile isSpaceChar
          if ws2.isEmpty then none
          else
            match t4 with
            | c4 :: t5 =>
              if c4 = '(' then
                (matchParen t5).map (fun p =>
                  { keyword := ['f', 'n'], name := name,
                    paramsStr := p.1, rest := p.2.1, remaining := p.2.2 })
              else none
            | [] => none
    else none
  | _ => none

/-- One attempt of `param_pattern = \((\w+)\s+(\w+)\)` at the head of `t`:
(name, type, remaining).  All three runs are deterministic maximal runs
(each is followed by a disjoint class or by the literal `)`). -/
def matchParamAt (t : List Char) : Option (List Char × List Char × List Char) :=
  match t with
  | c :: t1 =>
    if c = '(' then
      let n := t1.takeWhile isWordChar
      let t2 := t1.dropWhile isWordChar
      if n.isEmpty then none
      else
        let ws := t2.takeWhile isSpaceChar
        let t3 := t2.dropWhile isSpaceChar
        if ws.isEmpty then none
        else
          let ty := t3.takeWhile isWordChar
          let t4 := t3.dropWhile isWordChar
          if ty.isEmpty then none
          else
            match t4 with
            | c4 :: t5 => if c4 = ')' then some (n, ty, t5) else none
            | [] => none
    else none
  | [] => none

/-- Scan of `re.findall(param_pattern, params_str)`: left to right, emit
each non-overlapping match, resume after the matched span, advance one
character otherwise.  A match consumes at least one character, so
fuel = input length is enough. -/
def findParamsF : Nat → List Char → List (List Char × List Char)
  | 0, _ => []
  | f + 1, t =>
    match matchParamAt t with
    | some (n, ty, rem) => (n, ty) :: findParamsF f rem
    | none =>
      match t with
      | [] => []
      | _ :: t' => findParamsF f t'

/-- `re.findall(param_pattern, params_str)`. -/
def findParams (t : List Char) : List (List Char × List Char) :=
  findParamsF t.length t

/-- The replacement callback `replace_params(match)` from the source. -/
def replace_params (m : SigMatch) : List Char :=
  let params := findParams m.paramsStr
  if params.isEmpty then
    m.keyword ++ ' ' :: m.name ++ ' ' :: '-' :: '>' :: ' ' :: m.rest
  else
    let flat_params := List.intercalate [' '] (params.map (fun p => p.1 ++ ' ' :: p.2))
    m.keyword ++ ' ' :: m.name ++ ' ' :: flat_params ++ ' ' :: '-' :: '>' :: ' ' :: m.rest

/-- Scan of `re.sub(pattern, replace_params, content)`: leftmost scan; on a
match, emit the replacement and resume after the matched span, otherwise
copy one character.  A match consumes at least one character, so
fuel = input length is enough. -/
def convertGoF : Nat → List Char → List Char
  | 0, t => t
  | f + 1, t =>
    match matchSigAt t with
    | some m => replace_params m ++ convertGoF f m.remaining
    | none =>
      match t with
      | [] => []
      | c :: t' => c :: convertGoF f t'

/-- The substitution on character lists. -/
def convertChars (t : List Char) : List Char := convertGoF t.length t

/-- `convert_function_params(content)` from the source. -/
def convert_function_params (s : String) : String :=
  String.mk (convertChars s.data)

/-- True when the signature pattern matches at no position of `t` (the text
contains no occurrence of the old-syntax pattern). -/
def noSigMatch : List Char → Bool
  | [] => true
  | c :: t => (matchSigAt (c :: t)).isNone && noSigMatch t

/-- True when the signature pattern matches at none of the first `k`
positions of `t`. -/
def noSigMatchUpTo : List Char → Nat → Bool
  | _, 0 => true
  | [], _ + 1 => true
  | c :: t, k + 1 => (matchSigAt (c :: t)).isNone && noSigMatchUpTo t k

/-- True when every match of the signature pattern beginning strictly
before the trailing segment `D` of `t` leaves all of `D` unconsumed: at
each position of `t` whose suffix is longer than `D`, either the pattern
does not match or the match's remaining text still has `D` as a suffix.
Positions inside `D` itself are not constrained. -/
def noCrossBefore (D : List Char) : List Char → Bool
  | [] => true
  | c :: t =>
    (if (c :: t).length ≤ D.length then true
     else
       match matchSigAt (c :: t) with
       | none => true
       | some m => D.isSuffixOf m.remaining)
    && noCrossBefore D t

/-- Spec-side reading of step 2 of the algorithm, written from the
specification's words: "extract every innermost occurrence of the shape
`(<name> <type>)` where name and type are maximal runs of word characters,
in left-to-right order".  At every position of the text, in order, collect
the parameter-shape occurrence beginning there. -/
def specInnermostOccurrences : List Char → List (List Char × List Char)
  | [] => []
  | c :: t =>
    match matchParamAt (c :: t) with
    | some p => (p.1, p.2.1) :: specInnermostOccurrences t
    | none => specInnermostOccurrences t

/-! The command-line surface of `main()`.  The file system is modelled as a
partial map from paths to contents; `Path.exists` is membership,
`read_text`/`write_text` are lookup and update.  `args` is `sys.argv[1:]`. -/

/-- File-system model: path to contents. -/
def FS : Type := String → Option String

/-- `path.write_text(converted)`. -/
def write (fs : FS) (path text : String) : FS :=
  fun p => if p = path then some text else fs p

/-- The body of `main`'s per-file loop: returns the file system after the
iteration and the lines printed by it. -/
def processFile (fs : FS) (path : String) : FS × List String :=
  match fs path with
  | none => (fs, ["Skip: " ++ path ++ " (not found)"])
  | some content =>
    let converted := convert_function_params content
    if content ≠ converted then
      (write fs path converted, ["✓ Converted: " ++ path])
    else
      (fs, ["  Unchanged: " ++ path])

/-- Outcome of one run of the script. -/
structure RunResult where
  exitCode : Nat
  output : List String
  fs : FS

/-- The two-line usage message. -/
def usageLines : List String :=
  ["Usage: convert-syntax.py <file1.aisl> [file2.aisl ...]",
   "   or: convert-syntax.py tests/*.aisl"]

/-- `main()` from the source: `args` is `sys.argv[1:]`. -/
def main (args : List String) (fs : FS) : RunResult :=
  if args.isEmpty then
    { exitCode := 1, output := usageLines, fs := fs }
  else
    let step := fun (acc : FS × List String) (path : String) =>
      let r := processFile acc.1 path
      (r.1, acc.2 ++ r.2)
    let finalAcc := args.foldl step (fs, [])
    { exitCode := 0, output := finalAcc.2, fs := finalAcc.1 }

/-! Basic facts about the scans used by the matcher. -/

theorem length_dropWhile_le (p : Char → Bool) :
    ∀ l : List Char, (l.dropWhile p).length ≤ l.length := by
  intro l
  induction l with
  | nil => simp [List.dropWhile]
  | cons c t ih =>
    rw [List.dropWhile_cons]
    split
    · exact Nat.le_trans ih (by simp)
    · exact Nat.le_refl _

theorem dropWhile_head_not (p : Char → Bool) :
    ∀ (l : List Char) (c : Char) (r : List Char), l.dropWhile p = c :: r → p c = false := by
  intro l
  induction l with
  | nil => intro c r h; simp [List.dropWhile] at h
  | cons a t ih =>
    intro c r h
    rw [List.dropWhile_cons] at h
    split at h
    · exact ih c r h
    · rename_i hpa
      injection h with h1 _
      subst h1
      simpa using hpa

theorem isWordChar_ne_lparen {c : Char} (h : isWordChar c = true) : ¬ c = '(' := by
  intro he
  subst he
  exact absurd h (by decide)

theorem isSpaceChar_ne_lparen {c : Char} (h : isSpaceChar c = true) : ¬ c = '(' := by
  intro he
  subst he
  exact absurd h (by decide)

/-! Any result returned by a backtracking combinator was produced by its
continuation on some suffix no longer than the input; these lemmas let
facts about the innermost continuation flow out to the whole match. -/

theorem starClass_eq_some {α : Type} (p : Char → Bool) (k : List Char → Option α) :
    ∀ (t : List Char) (a : α), starClass p k t = some a →
      ∃ t', t'.length ≤ t.length ∧ k t' = some a := by
  intro t
  induction t with
  | nil => intro a h; exact ⟨[], Nat.le_refl _, h⟩
  | cons c t ih =>
    intro a h
    rw [starClass] at h
    split at h
    · rcases (Option.orElse_eq_some _ _ _).mp h with h1 | ⟨_, h2⟩
      · rcases ih a h1 with ⟨t', hlen, hk⟩
        exact ⟨t', Nat.le_trans hlen (by simp), hk⟩
      · exact ⟨c :: t, Nat.le_refl _, h2⟩
    · exact ⟨c :: t, Nat.le_refl _, h⟩

theorem starGroup_eq_some {α : Type} (k : List Char → Option α) :
    ∀ (fuel : Nat) (t : List Char) (a : α), starGroup k fuel t = some a →
      ∃ t', t'.length ≤ t.length ∧ k t' = some a := by
  intro fuel
  induction fuel with
  | zero => intro t a h; exact ⟨t, Nat.le_refl _, h⟩
  | succ f ih =>
    intro t a h
    match t with
    | [] => exact ⟨[], Nat.le_refl _, h⟩
    | c :: t1 =>
      simp only [starGroup] at h
      split at h
      · rcases (Option.orElse_eq_some _ _ _).mp h with h1 | ⟨_, h2⟩
        · rcases starClass_eq_some _ _ _ _ h1 with ⟨t2, hl2, hk2⟩
          split at hk2
          · rename_i d t3
            split at hk2
            · rcases starClass_eq_some _ _ _ _ hk2 with ⟨t4, hl4, hk4⟩
              rcases ih t4 a hk4 with ⟨t', hl', hk'⟩
              refine ⟨t', ?_, hk'⟩
              simp at hl2
              simp
              omega
            · exact absurd hk2 (by simp)
          · exact absurd hk2 (by simp)
        · exact ⟨c :: t1, Nat.le_refl _, h2⟩
      · exact ⟨c :: t1, Nat.le_refl _, h⟩

theorem dotTail_eq_some :
    ∀ (k : Nat) (w rest rem : List Char), dotTail k w = some (rest, rem) →
      rest ≠ [] ∧ (∀ c ∈ rest, ¬ c = '\n') ∧
      (rem = [] ∨ ∃ r, rem = '\n' :: r) ∧ rem.length < w.length := by
  intro k
  induction k with
  | zero => intro w rest rem h; simp [dotTail] at h
  | succ j ih =>
    intro w rest rem h
    simp only [dotTail] at h
    split at h
    · rename_i c r heq
      split at h
      · exact ih w rest rem h
      · rename_i hc
        injection h with h'
        have hr : c :: r.takeWhile (fun x => x != '\n') = rest ∧
            r.dropWhile (fun x => x != '\n') = rem := by
          constructor
          · exact congrArg Prod.fst h'
          · exact congrArg Prod.snd h'
        rcases hr with ⟨hrest, hrem⟩
        have hlen : r.length + 1 = w.length - (j + 1) := by
          have := congrArg List.length heq
          simpa using this.symm
        have hwlen : j + 1 < w.length := by
          by_contra hcon
          have : w.drop (j + 1) = [] := List.drop_eq_nil_of_le (by omega)
          rw [this] at heq
          exact absurd heq (by simp)
        refine ⟨?_, ?_, ?_, ?_⟩
        · rw [← hrest]; simp
        · intro x hx
          rw [← hrest] at hx
          rcases List.mem_cons.mp hx with h1 | h1
          · subst h1; exact hc
          · have := List.mem_takeWhile_imp h1
            simpa using this
        · rcases hdw : r.dropWhile (fun x => x != '\n') with _ | ⟨d, r'⟩
          · left; rw [← hrem, hdw]
          · right
            have hd := dropWhile_head_not _ r d r' hdw
            have : d = '\n' := by simpa using hd
            subst this
            exact ⟨r', by rw [← hrem, hdw]⟩
        · have h1 : rem.length ≤ r.length := by
            rw [← hrem]; exact length_dropWhile_le _ r
          omega
    · exact ih w rest rem h

theorem matchTail_eq_some (v rest rem : List Char) (h : matchTail v = some (rest, rem)) :
    rest ≠ [] ∧ (∀ c ∈ rest, ¬ c = '\n') ∧ (rem = [] ∨ ∃ r, rem = '\n' :: r) ∧
    rem.length < v.length := by
  simp only [matchTail] at h
  split at h
  · exact absurd h (by simp)
  · split at h
    · rename_i w heq
      rcases dotTail_eq_some _ _ _ _ h with ⟨h1, h2, h3, h4⟩
      refine ⟨h1, h2, h3, ?_⟩
      have hle := length_dropWhile_le isSpaceChar v
      rw [heq] at hle
      simp at hle
      omega
    · exact absurd h (by simp)

theorem matchParen_eq_some (t5 g rest rem : List Char)
    (h : matchParen t5 = some (g, rest, rem)) :
    rest ≠ [] ∧ (∀ c ∈ rest, ¬ c = '\n') ∧ (rem = [] ∨ ∃ r, rem = '\n' :: r) ∧
    rem.length < t5.length := by
  rcases starClass_eq_some _ _ _ _ h with ⟨t1, hl1, h1⟩
  rcases starGroup_eq_some _ _ _ _ h1 with ⟨t2, hl2, h2⟩
  split at h2
  · rename_i d v
    split at h2
    · rw [Option.map_eq_some'] at h2
      rcases h2 with ⟨⟨rest0, rem0⟩, hmt, hpair⟩
      have hg : t5.take (t5.length - v.length - 1) = g ∧ rest0 = rest ∧ rem0 = rem := by
        refine ⟨congrArg (fun q => q.1) hpair, ?_, ?_⟩
        · exact congrArg (fun q => q.2.1) hpair
        · exact congrArg (fun q => q.2.2) hpair
      rcases hg with ⟨_, hr1, hr2⟩
      rw [hr1, hr2] at hmt
      rcases matchTail_eq_some v rest rem hmt with ⟨h3, h4, h5, h6⟩
      refine ⟨h3, h4, h5, ?_⟩
      simp at hl2
      omega
    · exact absurd h2 (by simp)
  · exact absurd h2 (by simp)

theorem matchSigAt_eq_some (t : List Char) (m : SigMatch) (h : matchSigAt t = some m) :
    m.remaining.length < t.length ∧ m.rest ≠ [] ∧ (∀ c ∈ m.rest, ¬ c = '\n') ∧
    (m.remaining = [] ∨ ∃ r, m.remaining = '\n' :: r) := by
  match t with
  | [] => simp [matchSigAt] at h
  | [_] => simp [matchSigAt] at h
  | [_, _] => simp [matchSigAt] at h
  | c0 :: c1 :: c2 :: t1 =>
    simp only [matchSigAt] at h
    split at h
    · split at h
      · exact absurd h (by simp)
      · split at h
        · exact absurd h (by simp)
        · split at h
          · exact absurd h (by simp)
          · split at h
            · rename_i c4 t5 heq
              split at h
              · rw [Option.map_eq_some'] at h
                rcases h with ⟨⟨g, rest0, rem0⟩, hmp, hm⟩
                rcases matchParen_eq_some _ _ _ _ hmp with ⟨h1, h2, h3, h4⟩
                have hrest : m.rest = rest0 := by rw [← hm]
                have hrem : m.remaining = rem0 := by rw [← hm]
                rw [hrest, hrem]
                refine ⟨?_, h1, h2, h3⟩
                have e1 := length_dropWhile_le isSpaceChar t1
                have e2 := length_dropWhile_le isWordChar (t1.dropWhile isSpaceChar)
                have e3 := length_dropWhile_le isSpaceChar
                  ((t1.dropWhile isSpaceChar).dropWhile isWordChar)
                have e4 := congrArg List.length heq
                simp at e4
                simp only [List.length_cons]
                omega
              · exact absurd h (by simp)
            · exact absurd h (by simp)
    · exact absurd h (by simp)

/-! The remaining text of a successful match is a suffix of the text the
match was attempted on: the matcher only consumes from the front. -/

theorem starClass_some_suffix {α : Type} (p : Char → Bool) (k : List Char → Option α) :
    ∀ (t : List Char) (a : α), starClass p k t = some a →
      ∃ t', t' <:+ t ∧ k t' = some a := by
  intro t
  induction t with
  | nil => intro a h; exact ⟨[], List.suffix_refl _, h⟩
  | cons c t ih =>
    intro a h
    rw [starClass] at h
    split at h
    · rcases (Option.orElse_eq_some _ _ _).mp h with h1 | ⟨_, h2⟩
      · rcases ih a h1 with ⟨t', hs, hk⟩
        exact ⟨t', hs.trans (List.suffix_cons c t), hk⟩
      · exact ⟨c :: t, List.suffix_refl _, h2⟩
    · exact ⟨c :: t, List.suffix_refl _, h⟩

theorem starGroup_some_suffix {α : Type} (k : List Char → Option α) :
    ∀ (fuel : Nat) (t : List Char) (a : α), starGroup k fuel t = some a →
      ∃ t', t' <:+ t ∧ k t' = some a := by
  intro fuel
  induction fuel with
  | zero => intro t a h; exact ⟨t, List.suffix_refl _, h⟩
  | succ f ih =>
    intro t a h
    match t with
    | [] => exact ⟨[], List.suffix_refl _, h⟩
    | c :: t1 =>
      simp only [starGroup] at h
      split at h
      · rcases (Option.orElse_eq_some _ _ _).mp h with h1 | ⟨_, h2⟩
        · rcases starClass_some_suffix _ _ _ _ h1 with ⟨t2, hs2, hk2⟩
          split at hk2
          · rename_i d t3
            split at hk2
            · rcases starClass_some_suffix _ _ _ _ hk2 with ⟨t4, hs4, hk4⟩
              rcases ih t4 a hk4 with ⟨t', hs', hk'⟩
              refine ⟨t', ?_, hk'⟩
              have hs3 : t3 <:+ t1 := ((List.suffix_cons d t3).trans hs2)
              exact ((hs'.trans hs4).trans hs3).trans (List.suffix_cons c t1)
            · exact absurd hk2 (by simp)
          · exact absurd hk2 (by simp)
        · exact ⟨c :: t1, List.suffix_refl _, h2⟩
      · exact ⟨c :: t1, List.suffix_refl _, h⟩

theorem dotTail_some_suffix :
    ∀ (k : Nat) (w rest rem : List Char), dotTail k w = some (rest, rem) →
      rem <:+ w := by
  intro k
  induction k with
  | zero => intro w rest rem h; simp [dotTail] at h
  | succ j ih =>
    intro w rest rem h
    simp only [dotTail] at h
    split at h
    · rename_i c r heq
      split at h
      · exact ih w rest rem h
      · injection h with h'
        have hrem : r.dropWhile (fun x => x != '\n') = rem := congrArg Prod.snd h'
        have h1 : rem <:+ r := hrem ▸ List.dropWhile_suffix _
        have h2 : r <:+ w := (List.suffix_cons c r).trans (heq ▸ List.drop_suffix (j + 1) w)
        exact h1.trans h2
    · exact ih w rest rem h

theorem matchTail_some_suffix (v rest rem : List Char)
    (h : matchTail v = some (rest, rem)) : rem <:+ v := by
  simp only [matchTail] at h
  split at h
  · exact absurd h (by simp)
  · split at h
    · rename_i w heq
      have h1 : rem <:+ w := dotTail_some_suffix _ _ _ _ h
      have h2 : w <:+ v :=
        ((List.suffix_cons '>' w).trans (List.suffix_cons '-' ('>' :: w))).trans
          (heq ▸ List.dropWhile_suffix isSpaceChar)
      exact h1.trans h2
    · exact absurd h (by simp)

theorem matchParen_some_suffix (t5 g rest rem : List Char)
    (h : matchParen t5 = some (g, rest, rem)) : rem <:+ t5 := by
  rcases starClass_some_suffix _ _ _ _ h with ⟨t1, hs1, h1⟩
  rcases starGroup_some_suffix _ _ _ _ h1 with ⟨t2, hs2, h2⟩
  split at h2
  · rename_i d v
    split at h2
    · rw [Option.map_eq_some'] at h2
      rcases h2 with ⟨⟨rest0, rem0⟩, hmt, hpair⟩
      have hr2 : rem0 = rem := congrArg (fun q => q.2.2) hpair
      rw [hr2] at hmt
      have h3 : rem <:+ v := matchTail_some_suffix v rest0 rem hmt
      have h4 : v <:+ t1 := (List.suffix_cons d v).trans hs2
      exact (h3.trans h4).trans hs1
    · exact absurd h2 (by simp)
  · exact absurd h2 (by simp)

theorem matchSigAt_remaining_suffix (t : List Char) (m : SigMatch)
    (h : matchSigAt t = some m) : m.remaining <:+ t := by
  match t with
  | [] => simp [matchSigAt] at h
  | [_] => simp [matchSigAt] at h
  | [_, _] => simp [matchSigAt] at h
  | c0 :: c1 :: c2 :: t1 =>
    simp only [matchSigAt] at h
    split at h
    · split at h
      · exact absurd h (by simp)
      · split at h
        · exact absurd h (by simp)
        · split at h
          · exact absurd h (by simp)
          · split at h
            · rename_i c4 t5 heq
              split at h
              · rw [Option.map_eq_some'] at h
                rcases h with ⟨⟨g, rest0, rem0⟩, hmp, hm⟩
                have hrem : m.remaining = rem0 := by rw [← hm]
                rw [hrem]
                have h1 : rem0 <:+ t5 := matchParen_some_suffix _ _ _ _ hmp
                have h2 : t5 <:+ t1 :=
                  (((List.suffix_cons c4 t5).trans
                      (heq ▸ List.dropWhile_suffix isSpaceChar)).trans
                    (List.dropWhile_suffix isWordChar)).trans
                    (List.dropWhile_suffix isSpaceChar)
                have h3 : t1 <:+ c0 :: c1 :: c2 :: t1 :=
                  ((List.suffix_cons c2 t1).trans
                    (List.suffix_cons c1 (c2 :: t1))).trans
                    (List.suffix_cons c0 (c1 :: c2 :: t1))
                exact (h1.trans h2).trans h3
              · exact absurd h (by simp)
            · exact absurd h (by simp)
    · exact absurd h (by simp)

/-! Facts about the substitution scan. -/

theorem convertGoF_nil : ∀ f, convertGoF f [] = [] := by
  intro f
  cases f with
  | zero => rfl
  | succ f => rfl

theorem convertGoF_fuel_irrel :
    ∀ (f g : Nat) (t : List Char), t.length ≤ f → t.length ≤ g →
      convertGoF f t = convertGoF g t := by
  intro f
  induction f with
  | zero =>
    intro g t hf _
    have : t = [] := List.eq_nil_of_length_eq_zero (Nat.le_zero.mp hf)
    subst this
    rw [convertGoF_nil, convertGoF_nil]
  | succ f ih =>
    intro g t hf hg
    cases g with
    | zero =>
      have : t = [] := List.eq_nil_of_length_eq_zero (Nat.le_zero.mp hg)
      subst this
      rw [convertGoF_nil, convertGoF_nil]
    | succ g =>
      simp only [convertGoF]
      cases hm : matchSigAt t with
      | some m =>
        have hlt := (matchSigAt_eq_some t m hm).1
        dsimp only
        rw [ih g m.remaining (by omega) (by omega)]
      | none =>
        cases t with
        | nil => rfl
        | cons c t' =>
          simp at hf hg
          dsimp only
          rw [ih g t' (by omega) (by omega)]

theorem convertGoF_of_noSig :
    ∀ (f : Nat) (t : List Char), noSigMatch t = true → convertGoF f t = t := by
  intro f
  induction f with
  | zero => intro t _; rfl
  | succ f ih =>
    intro t ht
    cases t with
    | nil => rfl
    | cons c t' =>
      simp only [noSigMatch, Bool.and_eq_true, Option.isNone_iff_eq_none] at ht
      simp only [convertGoF, ht.1]
      rw [ih t' ht.2]

/-- Text in which the signature pattern matches nowhere passes through the
substitution unchanged. -/
theorem convertChars_of_noSig (t : List Char) (h : noSigMatch t = true) :
    convertChars t = t :=
  convertGoF_of_noSig t.length t h

theorem matchSigAt_newline : ∀ post : List Char, matchSigAt ('\n' :: post) = none := by
  intro post
  match post with
  | [] => rfl
  | [_] => rfl
  | b :: c :: t => simp [matchSigAt]

/-- A scan prefix every one of whose positions satisfies `noCrossBefore`
keeps satisfying it at any suffix. -/
theorem noCrossBefore_suffix (D : List Char) :
    ∀ (t t' : List Char), t' <:+ t → noCrossBefore D t = true →
      noCrossBefore D t' = true := by
  intro t
  induction t with
  | nil =>
    intro t' hs h
    rw [List.suffix_nil.mp hs]
    exact h
  | cons c t ih =>
    intro t' hs h
    simp only [noCrossBefore, Bool.and_eq_true] at h
    rcases List.suffix_cons_iff.mp hs with heq | hs'
    · rw [heq]
      simp only [noCrossBefore, Bool.and_eq_true]
      exact h
    · exact ih t' hs' h.2

/-- At a position strictly before the trailing segment, `noCrossBefore`
says a successful match leaves the segment unconsumed. -/
theorem noCrossBefore_head (D : List Char) (c : Char) (t : List Char) (m : SigMatch)
    (hlen : D.length < (c :: t).length)
    (hnc : noCrossBefore D (c :: t) = true)
    (hm : matchSigAt (c :: t) = some m) : D <:+ m.remaining := by
  simp only [noCrossBefore, Bool.and_eq_true] at hnc
  have h1 := hnc.1
  rw [if_neg (by omega)] at h1
  rw [hm] at h1
  exact List.isSuffixOf_iff_suffix.mp h1

/-- When every match beginning strictly before the trailing segment `D`
leaves `D` unconsumed, the scan eventually reaches `D` exactly, and the
substitution of `D` proceeds independently of everything before it. -/
theorem convertGoF_to_boundary :
    ∀ (f : Nat) (w D : List Char), (w ++ D).length ≤ f →
      noCrossBefore D (w ++ D) = true →
      ∃ A, convertGoF f (w ++ D) = A ++ convertChars D := by
  intro f
  induction f with
  | zero =>
    intro w D hf _
    have hnil : w ++ D = [] := List.eq_nil_of_length_eq_zero (Nat.le_zero.mp hf)
    rcases List.append_eq_nil.mp hnil with ⟨hw, hD⟩
    refine ⟨[], ?_⟩
    rw [hw, hD]
    rfl
  | succ f ih =>
    intro w D hf hnc
    cases w with
    | nil =>
      refine ⟨[], ?_⟩
      simp only [List.nil_append] at hf ⊢
      exact convertGoF_fuel_irrel (f + 1) D.length D hf (Nat.le_refl _)
    | cons c w' =>
      simp only [List.cons_append] at hf hnc ⊢
      cases hm : matchSigAt (c :: (w' ++ D)) with
      | none =>
        have hnc' : noCrossBefore D (w' ++ D) = true :=
          noCrossBefore_suffix D _ _ (List.suffix_cons c (w' ++ D)) hnc
        rcases ih w' D (by simp at hf ⊢; omega) hnc' with ⟨A, hA⟩
        refine ⟨c :: A, ?_⟩
        simp only [convertGoF, hm]
        rw [hA]
        rfl
      | some m =>
        have hlenD : D.length < (c :: (w' ++ D)).length := by simp; omega
        have hD : D <:+ m.remaining := noCrossBefore_head D c (w' ++ D) m hlenD hnc hm
        obtain ⟨w2, hw2⟩ := hD
        have hsuf : m.remaining <:+ c :: (w' ++ D) :=
          matchSigAt_remaining_suffix _ m hm
        have hnc2 : noCrossBefore D m.remaining = true :=
          noCrossBefore_suffix D _ _ hsuf hnc
        have hlt : m.remaining.length < (c :: (w' ++ D)).length :=
          (matchSigAt_eq_some _ m hm).1
        rw [← hw2] at hnc2 hlt
        rcases ih w2 D (by simp at hlt hf ⊢; omega) hnc2 with ⟨A2, hA2⟩
        refine ⟨replace_params m ++ A2, ?_⟩
        simp only [convertGoF, hm]
        rw [← hw2, hA2]
        simp [List.append_assoc]

/-- A scan head in which the pattern matches at no position is copied
verbatim, and the substitution of the remainder is independent of it. -/
theorem convertGoF_copy_head :
    ∀ (w : List Char) (f : Nat) (v : List Char), (w ++ v).length ≤ f →
      noSigMatchUpTo (w ++ v) w.length = true →
      convertGoF f (w ++ v) = w ++ convertChars v := by
  intro w
  induction w with
  | nil =>
    intro f v hf _
    simp only [List.nil_append] at hf ⊢
    exact convertGoF_fuel_irrel f v.length v hf (Nat.le_refl _)
  | cons a w' ih =>
    intro f v hf hns
    have hns' : matchSigAt (a :: (w' ++ v)) = none ∧
        noSigMatchUpTo (w' ++ v) w'.length = true := by
      have he : noSigMatchUpTo ((a :: w') ++ v) (a :: w').length
          = ((matchSigAt (a :: (w' ++ v))).isNone
             && noSigMatchUpTo (w' ++ v) w'.length) := rfl
      rw [he, Bool.and_eq_true] at hns
      exact ⟨Option.isNone_iff_eq_none.mp hns.1, hns.2⟩
    cases f with
    | zero => simp at hf
    | succ f =>
      have hstep : convertGoF (f + 1) ((a :: w') ++ v)
          = a :: convertGoF f (w' ++ v) := by
        simp only [List.cons_append, convertGoF, hns'.1]
      rw [hstep, ih f v (by simp at hf ⊢; omega) hns'.2]
      simp

/-- The scan copies a leading newline (the pattern starts with an opening
parenthesis) and continues independently. -/
theorem convertChars_cons_newline (X : List Char) :
    convertChars ('\n' :: X) = '\n' :: convertChars X := by
  show convertGoF (X.length + 1) ('\n' :: X) = '\n' :: convertChars X
  simp only [convertGoF, matchSigAt_newline]
  rfl

/-! Facts about the parameter-extraction scan. -/

theorem matchParamAt_eq_some (t n ty rem : List Char)
    (h : matchParamAt t = some (n, ty, rem)) :
    ∃ ws : List Char,
      t = '(' :: (n ++ ws ++ ty ++ ')' :: rem) ∧
      n ≠ [] ∧ ws ≠ [] ∧ ty ≠ [] ∧
      (∀ c ∈ n, isWordChar c = true) ∧ (∀ c ∈ ws, isSpaceChar c = true) ∧
      (∀ c ∈ ty, isWordChar c = true) := by
  match t with
  | [] => simp [matchParamAt] at h
  | c :: t1 =>
    simp only [matchParamAt] at h
    split at h
    · rename_i hc
      split at h
      · exact absurd h (by simp)
      · rename_i hn1
        split at h
        · exact absurd h (by simp)
        · rename_i hw1
          split at h
          · exact absurd h (by simp)
          · rename_i hy1
            split at h
            · rename_i c4 t5 heq
              split at h
              · rename_i hc4
                rw [Option.some.injEq, Prod.mk.injEq, Prod.mk.injEq] at h
                rcases h with ⟨hN, hTY, ht5⟩
                refine ⟨(t1.dropWhile isWordChar).takeWhile isSpaceChar, ?_, ?_, ?_, ?_,
                  ?_, ?_, ?_⟩
                · rw [hc]
                  rw [hc4, ht5] at heq
                  have e3 := List.takeWhile_append_dropWhile isWordChar
                    ((t1.dropWhile isWordChar).dropWhile isSpaceChar)
                  rw [hTY, heq] at e3
                  have e2 := List.takeWhile_append_dropWhile isSpaceChar
                    (t1.dropWhile isWordChar)
                  rw [← e3] at e2
                  have e1 := List.takeWhile_append_dropWhile isWordChar t1
                  rw [hN, ← e2] at e1
                  congr 1
                  exact e1.symm.trans (by simp [List.append_assoc])
                · rw [← hN]; simpa using hn1
                · simpa using hw1
                · rw [← hTY]; simpa using hy1
                · intro x hx
                  rw [← hN] at hx
                  exact List.mem_takeWhile_imp hx
                · intro x hx
                  exact List.mem_takeWhile_imp hx
                · intro x hx
                  rw [← hTY] at hx
                  exact List.mem_takeWhile_imp hx
              · exact absurd h (by simp)
            · exact absurd h (by simp)
    · exact absurd h (by simp)

theorem matchParamAt_not_lparen (c : Char) (t : List Char) (hc : ¬ c = '(') :
    matchParamAt (c :: t) = none := by
  simp [matchParamAt, hc]

theorem spec_append_no_lparen :
    ∀ (u v : List Char), (∀ c ∈ u, ¬ c = '(') →
      specInnermostOccurrences (u ++ v) = specInnermostOccurrences v := by
  intro u
  induction u with
  | nil => intro v _; rfl
  | cons a u' ih =>
    intro v hu
    have ha : ¬ a = '(' := hu a (List.mem_cons_self a u')
    have hstep : specInnermostOccurrences ((a :: u') ++ v)
        = specInnermostOccurrences (u' ++ v) := by
      show (match matchParamAt (a :: (u' ++ v)) with
        | some p => (p.1, p.2.1) :: specInnermostOccurrences (u' ++ v)
        | none => specInnermostOccurrences (u' ++ v)) = specInnermostOccurrences (u' ++ v)
      rw [matchParamAt_not_lparen a (u' ++ v) ha]
    rw [hstep]
    exact ih v (fun c hc => hu c (List.mem_cons_of_mem a hc))

theorem matchParamAt_rem_lt (t n ty rem : List Char)
    (h : matchParamAt t = some (n, ty, rem)) : rem.length < t.length := by
  rcases matchParamAt_eq_some t n ty rem h with ⟨ws, hdec, _⟩
  rw [hdec]
  simp
  omega

/-- The extraction scan agrees with the specification's reading: it collects,
at every position of the text in left-to-right order, the parameter-shape
occurrence beginning there.  The scans differ only in that `findParamsF`
skips the span of a match, which is harmless: a span's interior consists of
word characters, whitespace and the closing parenthesis, so no occurrence
can begin inside it. -/
theorem findParamsF_eq_spec :
    ∀ (f : Nat) (t : List Char), t.length ≤ f →
      findParamsF f t = specInnermostOccurrences t := by
  intro f
  induction f with
  | zero =>
    intro t ht
    have : t = [] := List.eq_nil_of_length_eq_zero (Nat.le_zero.mp ht)
    subst this
    rfl
  | succ f ih =>
    intro t ht
    cases hm : matchParamAt t with
    | none =>
      cases t with
      | nil => rfl
      | cons c t' =>
        simp only [findParamsF, hm, specInnermostOccurrences]
        simp at ht
        exact ih t' (by omega)
    | some p =>
      rcases p with ⟨n, ty, rem⟩
      rcases matchParamAt_eq_some t n ty rem hm with
        ⟨ws, hdec, _, _, _, hwn, hws, hwt⟩
      simp only [findParamsF, hm]
      rw [hdec]
      simp only [specInnermostOccurrences]
      rw [← hdec, hm]
      have htail : n ++ ws ++ ty ++ ')' :: rem = (n ++ ws ++ ty ++ [')']) ++ rem := by
        simp [List.append_assoc]
      have hnol : ∀ c ∈ n ++ ws ++ ty ++ [')'], ¬ c = '(' := by
        intro c hc
        simp only [List.append_assoc, List.mem_append] at hc
        rcases hc with h1 | h1 | h1 | h1
        · exact isWordChar_ne_lparen (hwn c h1)
        · exact isSpaceChar_ne_lparen (hws c h1)
        · exact isWordChar_ne_lparen (hwt c h1)
        · simp at h1; subst h1; decide
      rw [htail, spec_append_no_lparen _ rem hnol]
      have hlt : rem.length < t.length := matchParamAt_rem_lt t n ty rem hm
      rw [ih rem (by omega)]

/-! Claims. -/

/-- C1, counterexample: the rewrite is not idempotent for every input.  A
rest clause may itself contain an old-syntax signature; it survives the
first pass verbatim and is rewritten by the second pass. -/
theorem c1_counterexample :
    convert_function_params (convert_function_params "(fn g () -> (fn f ((a b)) -> i32")
      ≠ convert_function_params "(fn g () -> (fn f ((a b)) -> i32" := by decide

/-- C1 (amended): applying the rewrite twice yields the same result as
applying it once for every input whose once-rewritten text contains no
occurrence of the old-syntax signature pattern. -/
theorem c1_idempotent_of_flat (s : String)
    (h : noSigMatch (convert_function_params s).data = true) :
    convert_function_params (convert_function_params s) = convert_function_params s :=
  calc convert_function_params (convert_function_params s)
      = String.mk (convertChars (convert_function_params s).data) := rfl
    _ = String.mk (convert_function_params s).data := by
        rw [convertChars_of_noSig (convert_function_params s).data h]
    _ = convert_function_params s := rfl

/-- Witness for C1 at a concrete input. -/
theorem c1_idempotent_of_flat_witness :
    noSigMatch (convert_function_params "(fn add2 ((a i32)) -> i32").data = true
    ∧ convert_function_params (convert_function_params "(fn add2 ((a i32)) -> i32")
      = convert_function_params "(fn add2 ((a i32)) -> i32" :=
  ⟨by decide, c1_idempotent_of_flat _ (by decide)⟩

/-- C2, counterexample: for an input with two old-syntax signatures on
separate lines, the first match's rest capture is only its own trailing
clause (the text up to the newline), not everything through the end of the
last signature's trailing clause. -/
theorem c2_counterexample :
    (matchSigAt "(fn f ((a b)) -> i32\n(fn g ((c d)) -> i64".data).map SigMatch.rest
      = some "i32".data
    ∧ some "i32".data ≠ some "i32\n(fn g ((c d)) -> i64".data := by decide

/-- C2 (amended): the rest capture extends greedily only to the end of the
line: it contains no newline, and the matched span ends exactly at the next
newline or at the end of the input, so signatures on separate lines are
matched separately. -/
theorem c2_rest_stops_at_newline (t : List Char) (m : SigMatch)
    (h : matchSigAt t = some m) :
    (∀ c ∈ m.rest, ¬ c = '\n') ∧ (m.remaining = [] ∨ ∃ r, m.remaining = '\n' :: r) :=
  ⟨(matchSigAt_eq_some t m h).2.2.1, (matchSigAt_eq_some t m h).2.2.2⟩

/-- Witness for C2 at a concrete two-line input. -/
theorem c2_rest_stops_at_newline_witness :
    (∀ c ∈ "i32".data, ¬ c = '\n')
    ∧ ("\n(fn g ((c d)) -> i64".data = ([] : List Char)
       ∨ ∃ r, "\n(fn g ((c d)) -> i64".data = '\n' :: r) :=
  c2_rest_stops_at_newline "(fn f ((a b)) -> i32\n(fn g ((c d)) -> i64".data
    { keyword := "fn".data, name := "f".data, paramsStr := "(a b)".data,
      rest := "i32".data, remaining := "\n(fn g ((c d)) -> i64".data } (by decide)

/-- C3, code bug: the replacement emitted for a matched signature does not
begin with the input's opening "(" marker.  The script's own module
docstring and inline comment present the new syntax with the marker kept
(`(fn add a i32 b i32 -> i32`), but the replacement template drops it. -/
theorem c3_marker_dropped :
    convert_function_params "(fn add ((a i32) (b i32)) -> i32"
      ≠ "(fn add a i32 b i32 -> i32"
    ∧ (convert_function_params "(fn add ((a i32) (b i32)) -> i32").front = 'f' := by
  decide

/-- C4: the multi-parameter example from the specification. -/
theorem c4_multi_param :
    convert_function_params "(fn add ((a i32) (b i32)) -> i32"
      = "fn add a i32 b i32 -> i32" := by decide

/-- C5: the zero-parameter example, and in general the zero-parameter
replacement elides the parameter list entirely: keyword, space, name,
space, arrow, space, rest. -/
theorem c5_zero_param :
    convert_function_params "(fn main () -> i32" = "fn main -> i32"
    ∧ ∀ m : SigMatch, findParams m.paramsStr = [] →
        replace_params m
          = m.keyword ++ ' ' :: m.name ++ ' ' :: '-' :: '>' :: ' ' :: m.rest := by
  constructor
  · decide
  · intro m hm
    simp [replace_params, hm]

/-- Witness for C5 at a concrete match value. -/
theorem c5_zero_param_witness :
    convert_function_params "(fn main () -> i32" = "fn main -> i32"
    ∧ replace_params
        { keyword := "fn".data, name := "main".data, paramsStr := [],
          rest := "i32".data, remaining := [] }
      = "fn".data ++ ' ' :: "main".data ++ ' ' :: '-' :: '>' :: ' ' :: "i32".data :=
  ⟨c5_zero_param.1, c5_zero_param.2 _ (by decide)⟩

/-- C6: the extracted parameters are exactly the innermost occurrences of
the shape `(<name> <type>)` — name and type maximal word-character runs —
in left-to-right order; entries not matching that shape contribute nothing,
and emitted pairs keep the order of their declarations. -/
theorem c6_extraction_exactly_innermost (s : List Char) :
    findParams s = specInnermostOccurrences s :=
  findParamsF_eq_spec s.length s (Nat.le_refl _)

/-- C7: text containing no occurrence of the old-syntax signature pattern
is returned unchanged, character for character. -/
theorem c7_pass_through (s : String) (h : noSigMatch s.data = true) :
    convert_function_params s = s :=
  calc convert_function_params s
      = String.mk (convertChars s.data) := rfl
    _ = String.mk s.data := by rw [convertChars_of_noSig s.data h]
    _ = s := rfl

/-- Witness for C7 at a concrete input. -/
theorem c7_pass_through_witness :
    noSigMatch "no signatures here\njust text".data = true
    ∧ convert_function_params "no signatures here\njust text"
      = "no signatures here\njust text" :=
  ⟨by decide, c7_pass_through _ (by decide)⟩

/-- C8, counterexample: a match may extend past the end of the line on
which it starts.  For the input below the only match begins on line 1 (no
match begins on line 2, which the second conjunct shows), yet line 2 does
not appear byte-for-byte in the output: the output is a single line with no
parenthesis at all. -/
theorem c8_counterexample :
    convert_function_params "(fn foo\n((a b)) -> i32" = "fn foo a b -> i32"
    ∧ noSigMatch "((a b)) -> i32".data = true
    ∧ ¬ '\n' ∈ "fn foo a b -> i32".data
    ∧ "fn foo a b -> i32" ≠ "((a b)) -> i32" := by decide

/-- C8 (amended): a line on which no match begins, and into which no match
extends from an earlier line — every match beginning before the line's
preceding newline leaves that newline and everything after it unconsumed —
is copied byte-for-byte unchanged, even when earlier lines contain
rewritten signatures, and the substitution continues independently after
the line.  (A match can cross a newline only through its whitespace or
parameter-list region; the rest capture cannot.)  The text before the line
becomes some rewritten text `A`; the line and the independently rewritten
remainder follow it verbatim. -/
theorem c8_unmatched_line_preserved (pre line tail : List Char)
    (hpre : noCrossBefore ('\n' :: (line ++ tail)) (pre ++ '\n' :: (line ++ tail)) = true)
    (hline : noSigMatchUpTo (line ++ tail) line.length = true)
    (_hnl : ¬ '\n' ∈ line) :
    ∃ A, convertChars (pre ++ '\n' :: (line ++ tail))
      = A ++ '\n' :: (line ++ convertChars tail) := by
  rcases convertGoF_to_boundary (pre ++ '\n' :: (line ++ tail)).length pre
      ('\n' :: (line ++ tail)) (Nat.le_refl _) hpre with ⟨A, hA⟩
  refine ⟨A, ?_⟩
  have hA' : convertChars (pre ++ '\n' :: (line ++ tail))
      = A ++ convertChars ('\n' :: (line ++ tail)) := hA
  have hcopy : convertChars (line ++ tail) = line ++ convertChars tail :=
    convertGoF_copy_head line (line ++ tail).length tail (Nat.le_refl _) hline
  rw [hA', convertChars_cons_newline, hcopy]

/-- Witness for C8: a clean line following a line whose signature is
rewritten by the pass. -/
theorem c8_unmatched_line_preserved_witness :
    (∃ A, convertChars ("(fn a () -> x".data ++ '\n' :: ("clean".data ++ []))
        = A ++ '\n' :: ("clean".data ++ convertChars []))
    ∧ convertChars ("(fn a () -> x".data ++ '\n' :: ("clean".data ++ []))
        = "fn a -> x\nclean".data :=
  ⟨c8_unmatched_line_preserved "(fn a () -> x".data "clean".data []
      (by decide) (by decide) (by decide),
   by decide⟩

/-- C9: with zero file arguments the program prints the two-line usage
message, exits with status 1 and performs no file operation; with one or
more arguments it exits with status 0, and a named file that does not exist
only produces a skip notice, leaving the file system unchanged. -/
theorem c9_cli (args : List String) (fs : FS) (path : String)
    (hargs : args ≠ []) (hmiss : fs path = none) :
    (main [] fs).exitCode = 1
    ∧ (main [] fs).output = usageLines
    ∧ usageLines.length = 2
    ∧ (main [] fs).fs = fs
    ∧ (main args fs).exitCode = 0
    ∧ processFile fs path = (fs, ["Skip: " ++ path ++ " (not found)"]) := by
  refine ⟨rfl, rfl, rfl, rfl, ?_, ?_⟩
  · simp [main, List.isEmpty_iff, hargs]
  · simp [processFile, hmiss]

/-- Witness for C9 at a concrete argument list and file system. -/
theorem c9_cli_witness :
    (main [] (fun _ => none : FS)).exitCode = 1
    ∧ (main [] (fun _ => none : FS)).output = usageLines
    ∧ usageLines.length = 2
    ∧ (main [] (fun _ => none : FS)).fs = (fun _ => none : FS)
    ∧ (main ["missing.aisl"] (fun _ => none : FS)).exitCode = 0
    ∧ processFile (fun _ => none : FS) "missing.aisl"
      = ((fun _ => none : FS), ["Skip: " ++ "missing.aisl" ++ " (not found)"]) :=
  c9_cli ["missing.aisl"] (fun _ => none) "missing.aisl" (by simp) rfl

/-- C10: an existing file is overwritten (with a "converted" notice) exactly
when the rewriter's result differs from the original text; when the result
is identical an "unchanged" notice is emitted and the stored contents are
not rewritten. -/
theorem c10_overwrite_iff_changed (fs : FS) (path content : String)
    (h : fs path = some content) :
    (content ≠ convert_function_params content →
       processFile fs path
         = (write fs path (convert_function_params content), ["✓ Converted: " ++ path]))
    ∧ (content = convert_function_params content →
       processFile fs path = (fs, ["  Unchanged: " ++ path])) := by
  constructor
  · intro hne
    simp [processFile, h, hne]
  · intro heq
    have hcond : ¬ content ≠ convert_function_params content := fun hk => hk heq
    simp [processFile, h, hcond]

/-- Witness for C10 at a concrete file system holding one convertible file. -/
theorem c10_overwrite_iff_changed_witness :
    processFile (fun p => if p = "a.aisl" then some "(fn main () -> i32" else none : FS)
      "a.aisl"
      = (write (fun p => if p = "a.aisl" then some "(fn main () -> i32" else none : FS)
          "a.aisl" (convert_function_params "(fn main () -> i32"),
         ["✓ Converted: " ++ "a.aisl"]) :=
  (c10_overwrite_iff_changed _ "a.aisl" "(fn main () -> i32" (by simp)).1 (by decide)


end ConvertSyntax
